import Mathlib

/-!
Shallow embedding of `src/chess_engine/src/board/bitboard.rs` from the
repository `rust_chess_legacy`, together with proofs about its operations.

The `BitBoard` struct wraps a single `u64`; machine integers are modelled as
`Nat` with the `u64` range invariant (`val < 2 ^ 64`) stated explicitly where
it matters.  A Rust left shift `1 << k` panics (in debug builds it aborts, in
any build `k ≥ 64` is UB/overflow), so the shift is modelled as an
`Option`-valued operation and every function that may execute a shift is
`Option`-valued: `none` models a panic, `some` a normal return.  Mutation of
`&mut self` is modelled by returning the new `BitBoard` alongside the
function's Rust return value.
-/

set_option maxRecDepth 8192

namespace RustChess

/-- Error variants of `ChessError` as they are constructed in `bitboard.rs`
(the enum itself lives in `error.rs`, which is not part of the sources; the
variants are taken from their construction sites and from the spec's error
taxonomy: distinct tagged values carrying the offending index). -/
inductive ChessError where
  | BitBoardCheckBitInvalidIndex (index : Nat)
  | BitBoardSetBitInvalidIndex (index : Nat)
  | BitBoardUnsetBitInvalidIndex (index : Nat)
  | BitBoardUnsetNonSetBit (index : Nat)
  deriving DecidableEq, Repr

/-- `pub struct BitBoard(pub u64)` — the wrapped value, LSB is square 0. -/
structure BitBoard where
  val : Nat
  deriving DecidableEq, Repr

/-- Models the Rust expression `1 << index` at type `u64`: defined only when
the shift amount is below the bit width, `none` models the overflow panic. -/
def shl1_64 (index : Nat) : Option Nat :=
  if index < 64 then some (1 <<< index) else none

/-- Models the `u64::trailing_zeros` intrinsic by fuel recursion over the 64
bits: index of the lowest set bit among bits `0..63`, and `64` when the low
64 bits are all zero (for the intended domain `n < 2 ^ 64`: when `n = 0`). -/
def tz_loop : Nat → Nat → Nat
  | 0, _ => 0
  | fuel + 1, n => if n % 2 = 1 then 0 else 1 + tz_loop fuel (n / 2)

/-- `self.0.trailing_zeros()` for a `u64` value. -/
def trailing_zeros (n : Nat) : Nat := tz_loop 64 n

/-- `BitBoard::count_bits` body: `while b > 0 { count += 1; b &= b - 1 }`. -/
def count_bits_loop (b : Nat) : Nat :=
  if h : b = 0 then 0
  else 1 + count_bits_loop (b &&& (b - 1))
termination_by b
decreasing_by
  exact Nat.lt_of_le_of_lt Nat.and_le_right (Nat.sub_lt (Nat.pos_of_ne_zero h) Nat.zero_lt_one)

/-- `BitBoard::count_bits`: counts the number of set bits; pure (`&self`). -/
def count_bits (b : BitBoard) : Nat := count_bits_loop b.val

/-- `BitBoard::pop_bit`: clears the lowest set bit and returns its index, or
`None` when the value is all zeros (`trailing_zeros` returned 64).  The outer
`Option` models a potential panic of the shift `1 << lsb_index`. -/
def pop_bit (b : BitBoard) : Option (Option Nat × BitBoard) :=
  let lsb_index := trailing_zeros b.val
  if lsb_index = 64 then some (none, b)
  else (shl1_64 lsb_index).map (fun mask => (some lsb_index, BitBoard.mk (b.val ^^^ mask)))

/-- `BitBoard::check_bit`: `Ok(self.0 & (1 << index) != 0)` when
`index <= 63`, otherwise `Err(BitBoardCheckBitInvalidIndex)`; pure. -/
def check_bit (b : BitBoard) (index : Nat) : Option (Except ChessError Bool) :=
  if index > 63 then some (Except.error (ChessError.BitBoardCheckBitInvalidIndex index))
  else (shl1_64 index).map (fun mask => Except.ok (decide (b.val &&& mask ≠ 0)))

/-- `BitBoard::set_bit`: `self.0 |= 1 << index` and `Ok(&self.0)` when
`index <= 63`, otherwise `Err(BitBoardSetBitInvalidIndex)`. -/
def set_bit (b : BitBoard) (index : Nat) : Option (Except ChessError Nat × BitBoard) :=
  if index > 63 then some (Except.error (ChessError.BitBoardSetBitInvalidIndex index), b)
  else (shl1_64 index).map (fun mask =>
    (Except.ok (b.val ||| mask), BitBoard.mk (b.val ||| mask)))

/-- `BitBoard::unset_bit`: on a valid index, toggles the bit with XOR only if
`check_bit` returned `Ok(true)`, otherwise reports `BitBoardUnsetNonSetBit`;
an out-of-range index reports `BitBoardUnsetBitInvalidIndex`. -/
def unset_bit (b : BitBoard) (index : Nat) : Option (Except ChessError Nat × BitBoard) :=
  if index > 63 then some (Except.error (ChessError.BitBoardUnsetBitInvalidIndex index), b)
  else (check_bit b index).bind (fun r =>
    match r with
    | Except.ok true =>
      (shl1_64 index).map (fun mask =>
        (Except.ok (b.val ^^^ mask), BitBoard.mk (b.val ^^^ mask)))
    | _ => some (Except.error (ChessError.BitBoardUnsetNonSetBit index), b))

/-- `impl BitAnd for BitBoard`: `Self(self.0 & rhs.0)`. -/
def bitand (a rhs : BitBoard) : BitBoard := BitBoard.mk (a.val &&& rhs.val)

/-- Models the destination of `write!`: an accumulated output string together
with the set of string pieces whose write the sink rejects (a sink that can
fail is exactly what `fmt::Result` exists for). -/
structure Formatter where
  out : String
  failOn : List String
  deriving DecidableEq, Repr

/-- Models one `write!(f, lit)` with a literal piece: asks the sink to accept
the piece, returning `fmt::Result` and the updated destination. -/
def write_str (f : Formatter) (s : String) : Except Unit Unit × Formatter :=
  if s ∈ f.failOn then (Except.error (), f)
  else (Except.ok (), Formatter.mk (f.out ++ s) f.failOn)

/-- Modelled from the spec: the fixed iteration order of the external `Rank`
enumeration consumed by rendering (`Rank::iter()`; `util.rs` is not part of
the sources).  Ranks are numbered by the row they produce, top row first; the
spec's §8 fixture pins the second row to the rank holding indices 8–15. -/
def rank_iter : List Nat := [0, 1, 2, 3, 4, 5, 6, 7]

/-- Modelled from the spec: the fixed iteration order of the external `File`
enumeration (`File::iter()`; `util.rs` is not part of the sources), left
column first. -/
def file_iter : List Nat := [0, 1, 2, 3, 4, 5, 6, 7]

/-- Modelled from the spec: the external coordinate mapping
`Square64::from_file_and_rank` (`squares.rs` is not part of the sources),
total on in-range inputs, sending `(file, rank)` to the canonical index
`8 * rank + file` so that the row rendered for rank `r` holds the indices
`8 * r .. 8 * r + 7`, as the spec's §8 fixture pins. -/
def from_file_and_rank (file rank : Nat) : Nat := 8 * rank + file

/-- Models `.expect(..)` on a `Result`: a panic (`none`) on `Err`. -/
def expect_ok : Except ChessError Bool → Option Bool
  | Except.ok v => some v
  | Except.error _ => none

/-- One square of `Display::fmt`: `match self.check_bit(sq).expect(..) {
true => { write!(f, "1"); }, _ => { write!(f, "0"); } }` — note the source
statements end in `;`, so each write's `fmt::Result` is discarded and only
the destination update is kept. -/
def fmt_square (b : BitBoard) (square_64 : Nat) (f : Formatter) : Option Formatter :=
  ((check_bit b square_64).bind expect_ok).map (fun bit =>
    match bit with
    | true => (write_str f "1").2
    | false => (write_str f "0").2)

/-- One rank of `Display::fmt`: the inner file loop followed by
`write!(f, "\n");` — again with the write's `fmt::Result` discarded. -/
def fmt_rank (b : BitBoard) (rank : Nat) (f : Formatter) : Option Formatter :=
  (file_iter.foldlM (fun acc file => fmt_square b (from_file_and_rank file rank) acc) f).map
    (fun f1 => (write_str f1 "\n").2)

/-- `impl fmt::Display for BitBoard`: the rank loop, then the final
`write!(f, "")` whose `fmt::Result` is the value the function returns. -/
def fmt (b : BitBoard) (f : Formatter) : Option (Except Unit Unit × Formatter) :=
  (rank_iter.foldlM (fun acc rank => fmt_rank b rank acc) f).map (fun f2 => write_str f2 "")

/-- The character the spec prescribes for square `i`: `'1'` exactly for
members of the set. -/
def bit_char (b : BitBoard) (i : Nat) : Char := if b.val.testBit i then '1' else '0'

/-- One row of the grid the spec describes: 8 membership characters for the
indices `8 * r .. 8 * r + 7`, terminated by a newline. -/
def bit_row (b : BitBoard) (r : Nat) : String :=
  String.mk ((List.map (fun f => bit_char b (8 * r + f)) [0, 1, 2, 3, 4, 5, 6, 7])) ++ "\n"

/-- The full grid the spec describes: 8 rows, top row first, row `r` holding
the rank of indices `8 * r .. 8 * r + 7`. -/
def grid_string (b : BitBoard) : String :=
  String.join (List.map (fun r => bit_row b r) [0, 1, 2, 3, 4, 5, 6, 7])

/-! ## Basic lemmas about the embedded operations -/

lemma shl1_64_lt (i : Nat) (h : i < 64) : shl1_64 i = some (2 ^ i) := by
  simp [shl1_64, h, Nat.one_shiftLeft]

lemma and_two_pow_eq (v i : Nat) : v &&& 2 ^ i = if v.testBit i then 2 ^ i else 0 := by
  apply Nat.eq_of_testBit_eq
  intro j
  by_cases hv : v.testBit i <;> by_cases hij : i = j <;>
    simp_all [Nat.testBit_and, Nat.testBit_two_pow]

lemma decide_and_two_pow (v i : Nat) : decide (v &&& 2 ^ i ≠ 0) = v.testBit i := by
  rw [and_two_pow_eq]
  have hne : (2 : Nat) ^ i ≠ 0 := Nat.pos_iff_ne_zero.mp (Nat.pos_pow_of_pos i (by omega))
  by_cases hv : v.testBit i <;> simp [hv, hne]

lemma or_two_pow_of_testBit (v i : Nat) (hb : v.testBit i = true) : v ||| 2 ^ i = v := by
  apply Nat.eq_of_testBit_eq
  intro j
  by_cases hij : i = j
  · subst hij; simp [Nat.testBit_or, hb]
  · simp [Nat.testBit_or, Nat.testBit_two_pow, hij]

lemma check_bit_lt (b : BitBoard) (i : Nat) (h : i < 64) :
    check_bit b i = some (Except.ok (b.val.testBit i)) := by
  have h63 : ¬ i > 63 := by omega
  rw [check_bit, if_neg h63, shl1_64_lt i h]
  show some (Except.ok (decide (b.val &&& 2 ^ i ≠ 0))) = some (Except.ok (b.val.testBit i))
  rw [decide_and_two_pow]

lemma set_bit_lt (b : BitBoard) (i : Nat) (h : i < 64) :
    set_bit b i = some (Except.ok (b.val ||| 2 ^ i), BitBoard.mk (b.val ||| 2 ^ i)) := by
  have h63 : ¬ i > 63 := by omega
  rw [set_bit, if_neg h63, shl1_64_lt i h]
  rfl

lemma unset_bit_lt_set (b : BitBoard) (i : Nat) (h : i < 64) (hb : b.val.testBit i = true) :
    unset_bit b i = some (Except.ok (b.val ^^^ 2 ^ i), BitBoard.mk (b.val ^^^ 2 ^ i)) := by
  have h63 : ¬ i > 63 := by omega
  rw [unset_bit, if_neg h63, check_bit_lt b i h, hb]
  simp [shl1_64_lt i h]

lemma unset_bit_lt_clear (b : BitBoard) (i : Nat) (h : i < 64) (hb : b.val.testBit i = false) :
    unset_bit b i = some (Except.error (ChessError.BitBoardUnsetNonSetBit i), b) := by
  have h63 : ¬ i > 63 := by omega
  rw [unset_bit, if_neg h63, check_bit_lt b i h, hb]
  rfl

lemma tz_loop_le (fuel n : Nat) : tz_loop fuel n ≤ fuel := by
  induction fuel generalizing n with
  | zero => simp [tz_loop]
  | succ f ih =>
    rw [tz_loop]
    by_cases h : n % 2 = 1
    · simp [h]
    · have := ih (n / 2)
      simp only [if_neg h]
      omega

lemma tz_loop_spec (fuel n : Nat) (hn : n ≠ 0) (hlt : n < 2 ^ fuel) :
    tz_loop fuel n < fuel ∧ n.testBit (tz_loop fuel n) = true ∧
      ∀ j, j < tz_loop fuel n → n.testBit j = false := by
  induction fuel generalizing n with
  | zero => simp at hlt; omega
  | succ f ih =>
    by_cases h : n % 2 = 1
    · have heq : tz_loop (f + 1) n = 0 := by simp [tz_loop, h]
      rw [heq]
      refine ⟨by omega, by simp [Nat.testBit_zero, h], by omega⟩
    · have hm : n / 2 ≠ 0 := by omega
      have hm2 : n / 2 < 2 ^ f := by
        have hp : (2 : Nat) ^ (f + 1) = 2 ^ f * 2 := by rw [Nat.pow_succ]
        omega
      obtain ⟨h1, h2, h3⟩ := ih (n / 2) hm hm2
      have heq : tz_loop (f + 1) n = 1 + tz_loop f (n / 2) := by simp [tz_loop, h]
      rw [heq]
      refine ⟨by omega, ?_, ?_⟩
      · rw [Nat.add_comm, Nat.testBit_add_one]
        exact h2
      · intro j hj
        cases j with
        | zero => simp [Nat.testBit_zero, h]
        | succ j2 =>
          rw [Nat.testBit_add_one]
          exact h3 j2 (by omega)

lemma trailing_zeros_spec (n : Nat) (hn : n ≠ 0) (h64 : n < 2 ^ 64) :
    trailing_zeros n < 64 ∧ n.testBit (trailing_zeros n) = true ∧
      ∀ j, j < trailing_zeros n → n.testBit j = false :=
  tz_loop_spec 64 n hn h64

lemma trailing_zeros_le (n : Nat) : trailing_zeros n ≤ 64 := tz_loop_le 64 n

lemma pop_bit_isSome (b : BitBoard) : (pop_bit b).isSome := by
  by_cases h : trailing_zeros b.val = 64
  · simp [pop_bit, h]
  · have hlt : trailing_zeros b.val < 64 := Nat.lt_of_le_of_ne (trailing_zeros_le b.val) h
    simp [pop_bit, h, shl1_64_lt _ hlt]

lemma count_bits_loop_eq (b : Nat) :
    count_bits_loop b = if b = 0 then 0 else 1 + count_bits_loop (b &&& (b - 1)) := by
  rw [count_bits_loop.eq_def]
  by_cases h : b = 0 <;> simp [h]

lemma and_pred_even (m : Nat) : (2 * m) &&& (2 * m - 1) = 2 * (m &&& (m - 1)) := by
  apply Nat.eq_of_testBit_eq
  intro j
  cases j with
  | zero => simp [Nat.testBit_and, Nat.testBit_zero, Nat.mul_mod_right]
  | succ j =>
    have e1 : 2 * m / 2 = m := by omega
    have e2 : (2 * m - 1) / 2 = m - 1 := by omega
    have e3 : 2 * (m &&& (m - 1)) / 2 = m &&& (m - 1) := by omega
    simp only [Nat.testBit_and, Nat.testBit_add_one, Nat.and_div_two, e1, e2, e3]

lemma and_pred_odd (m : Nat) : (2 * m + 1) &&& (2 * m) = 2 * m := by
  apply Nat.eq_of_testBit_eq
  intro j
  cases j with
  | zero => simp [Nat.testBit_and, Nat.testBit_zero, Nat.mul_mod_right]
  | succ j =>
    have e1 : (2 * m + 1) / 2 = m := by omega
    have e2 : 2 * m / 2 = m := by omega
    simp only [Nat.testBit_and, Nat.testBit_add_one, Nat.and_div_two, e1, e2, Bool.and_self]

lemma count_even (m : Nat) : count_bits_loop (2 * m) = count_bits_loop m := by
  induction m using Nat.strong_induction_on with
  | _ m ih =>
    by_cases hm : m = 0
    · subst hm
      norm_num
    · have h2m : 2 * m ≠ 0 := by omega
      have hlt : m &&& (m - 1) < m :=
        Nat.lt_of_le_of_lt Nat.and_le_right (Nat.sub_lt (Nat.pos_of_ne_zero hm) Nat.zero_lt_one)
      calc count_bits_loop (2 * m)
          = 1 + count_bits_loop ((2 * m) &&& (2 * m - 1)) := by
            rw [count_bits_loop_eq, if_neg h2m]
        _ = 1 + count_bits_loop (2 * (m &&& (m - 1))) := by rw [and_pred_even m]
        _ = 1 + count_bits_loop (m &&& (m - 1)) := by rw [ih _ hlt]
        _ = count_bits_loop m := by
            conv_rhs => rw [count_bits_loop_eq]
            rw [if_neg hm]

lemma count_odd (m : Nat) : count_bits_loop (2 * m + 1) = count_bits_loop (2 * m) + 1 := by
  have h : 2 * m + 1 ≠ 0 := by omega
  have e : 2 * m + 1 - 1 = 2 * m := by omega
  rw [count_bits_loop_eq, if_neg h, e, and_pred_odd]
  omega

lemma count_bits_loop_div2 (n : Nat) :
    count_bits_loop n = n % 2 + count_bits_loop (n / 2) := by
  by_cases hp : n % 2 = 0
  · have hm : n = 2 * (n / 2) := by omega
    calc count_bits_loop n = count_bits_loop (2 * (n / 2)) := by rw [← hm]
      _ = count_bits_loop (n / 2) := count_even (n / 2)
      _ = n % 2 + count_bits_loop (n / 2) := by rw [hp]; omega
  · have hm : n = 2 * (n / 2) + 1 := by omega
    calc count_bits_loop n = count_bits_loop (2 * (n / 2) + 1) := by rw [← hm]
      _ = count_bits_loop (2 * (n / 2)) + 1 := count_odd (n / 2)
      _ = count_bits_loop (n / 2) + 1 := by rw [count_even (n / 2)]
      _ = n % 2 + count_bits_loop (n / 2) := by omega

lemma count_bits_loop_digits (n : Nat) : count_bits_loop n = (Nat.digits 2 n).sum := by
  induction n using Nat.strong_induction_on with
  | _ n ih =>
    by_cases h0 : n = 0
    · subst h0
      simp [count_bits_loop_eq]
    · rw [count_bits_loop_div2 n,
        Nat.digits_def' (by omega : 1 < 2) (Nat.pos_of_ne_zero h0),
        List.sum_cons, ih (n / 2) (by omega)]

lemma cb_iterate (n : Nat) :
    (fun v => v &&& (v - 1))^[count_bits_loop n] n = 0 ∧
      ∀ k, k < count_bits_loop n → (fun v => v &&& (v - 1))^[k] n ≠ 0 := by
  induction n using Nat.strong_induction_on with
  | _ n ih =>
    by_cases h0 : n = 0
    · subst h0
      constructor
      · rw [count_bits_loop_eq]
        simp
      · intro k hk
        rw [count_bits_loop_eq] at hk
        simp at hk
    · have hlt : n &&& (n - 1) < n :=
        Nat.lt_of_le_of_lt Nat.and_le_right (Nat.sub_lt (Nat.pos_of_ne_zero h0) Nat.zero_lt_one)
      obtain ⟨ih1, ih2⟩ := ih (n &&& (n - 1)) hlt
      have hc : count_bits_loop n = count_bits_loop (n &&& (n - 1)) + 1 := by
        rw [count_bits_loop_eq, if_neg h0]
        omega
      constructor
      · rw [hc, Function.iterate_succ_apply]
        exact ih1
      · intro k hk
        cases k with
        | zero => simpa using h0
        | succ k2 =>
          rw [Function.iterate_succ_apply]
          exact ih2 k2 (by omega)

/-! ## Claim theorems -/

/-- C9: bitwise AND of two BitBoards is total, commutative (`a & b == b & a`),
idempotent (`a & a == a`), and wraps exactly the bitwise AND of the two
underlying 64-bit values. -/
theorem bitand_spec :
    (∀ a b : BitBoard, bitand a b = bitand b a) ∧
    (∀ a : BitBoard, bitand a a = a) ∧
    (∀ a b : BitBoard, (bitand a b).val = a.val &&& b.val) := by
  refine ⟨?_, ?_, fun a b => rfl⟩
  · intro a b
    show BitBoard.mk (a.val &&& b.val) = BitBoard.mk (b.val &&& a.val)
    rw [Nat.and_comm]
  · intro a
    show BitBoard.mk (a.val &&& a.val) = a
    rw [Nat.and_self]

/-- C2: for every BitBoard and every index above 63, `check_bit`, `set_bit`
and `unset_bit` each return their InvalidIndex error and leave the wrapped
value unchanged. -/
theorem invalid_index_spec (b : BitBoard) (i : Nat) (h : 63 < i) :
    check_bit b i = some (Except.error (ChessError.BitBoardCheckBitInvalidIndex i)) ∧
    set_bit b i = some (Except.error (ChessError.BitBoardSetBitInvalidIndex i), b) ∧
    unset_bit b i = some (Except.error (ChessError.BitBoardUnsetBitInvalidIndex i), b) := by
  refine ⟨?_, ?_, ?_⟩ <;> simp [check_bit, set_bit, unset_bit, h]

/-- C2 witness: the three InvalidIndex results at index 64 on a non-empty
board. -/
theorem invalid_index_spec_witness :
    check_bit (BitBoard.mk 5) 64
        = some (Except.error (ChessError.BitBoardCheckBitInvalidIndex 64)) ∧
    set_bit (BitBoard.mk 5) 64
        = some (Except.error (ChessError.BitBoardSetBitInvalidIndex 64), BitBoard.mk 5) ∧
    unset_bit (BitBoard.mk 5) 64
        = some (Except.error (ChessError.BitBoardUnsetBitInvalidIndex 64), BitBoard.mk 5) :=
  invalid_index_spec (BitBoard.mk 5) 64 (by decide)

/-- C3: on a valid index, `unset_bit` of a clear bit reports the distinct
UnsetNonSetBit error leaving the value unchanged, `unset_bit` of a set bit
clears exactly that bit, while `set_bit` always succeeds and is idempotent
when the bit is already set. -/
theorem unset_set_asymmetry_spec (b : BitBoard) (i : Nat) (h : i < 64) :
    (b.val.testBit i = false →
      unset_bit b i = some (Except.error (ChessError.BitBoardUnsetNonSetBit i), b)) ∧
    (b.val.testBit i = true →
      unset_bit b i = some (Except.ok (b.val ^^^ 2 ^ i), BitBoard.mk (b.val ^^^ 2 ^ i)) ∧
      (b.val ^^^ 2 ^ i).testBit i = false ∧
      (∀ j, j ≠ i → (b.val ^^^ 2 ^ i).testBit j = b.val.testBit j)) ∧
    (∃ v, set_bit b i = some (Except.ok v, BitBoard.mk v)) ∧
    (b.val.testBit i = true → set_bit b i = some (Except.ok b.val, b)) := by
  refine ⟨fun hb => unset_bit_lt_clear b i h hb,
    fun hb => ⟨unset_bit_lt_set b i h hb, ?_, ?_⟩,
    ⟨b.val ||| 2 ^ i, set_bit_lt b i h⟩, fun hb => ?_⟩
  · simp [Nat.testBit_xor, hb, Nat.testBit_two_pow_self]
  · intro j hj
    simp [Nat.testBit_xor, Nat.testBit_two_pow_of_ne (Ne.symm hj)]
  · rw [set_bit_lt b i h, or_two_pow_of_testBit b.val i hb]

/-- C3 witness: clearing the set bit 8 of value 256 succeeds with result 0,
and unsetting clear bit 9 reports UnsetNonSetBit. -/
theorem unset_set_asymmetry_spec_witness :
    unset_bit (BitBoard.mk 256) 8
        = some (Except.ok ((256 : Nat) ^^^ 2 ^ 8), BitBoard.mk ((256 : Nat) ^^^ 2 ^ 8)) ∧
    unset_bit (BitBoard.mk 256) 9
        = some (Except.error (ChessError.BitBoardUnsetNonSetBit 9), BitBoard.mk 256) :=
  ⟨((unset_set_asymmetry_spec (BitBoard.mk 256) 8 (by decide)).2.1 (by decide)).1,
    (unset_set_asymmetry_spec (BitBoard.mk 256) 9 (by decide)).1 (by decide)⟩

/-- C7: from the empty board, `set_bit i` then `check_bit i` yields
`Ok(true)` while every other valid index stays `Ok(false)`, and `check_bit`
on the empty board yields `Ok(false)` on every valid index. -/
theorem set_then_check_spec (i : Nat) (h : i < 64) :
    (∃ v b1, set_bit (BitBoard.mk 0) i = some (Except.ok v, b1) ∧
      check_bit b1 i = some (Except.ok true) ∧
      ∀ j, j < 64 → j ≠ i → check_bit b1 j = some (Except.ok false)) ∧
    (∀ i2, i2 < 64 → check_bit (BitBoard.mk 0) i2 = some (Except.ok false)) := by
  constructor
  · refine ⟨(0 : Nat) ||| 2 ^ i, BitBoard.mk ((0 : Nat) ||| 2 ^ i), set_bit_lt (BitBoard.mk 0) i h, ?_, ?_⟩
    · rw [check_bit_lt _ i h]
      simp [Nat.testBit_two_pow_self]
    · intro j hj hji
      rw [check_bit_lt _ j hj]
      simp [Nat.testBit_two_pow_of_ne (Ne.symm hji)]
  · intro i2 h2
    rw [check_bit_lt _ i2 h2]
    simp [Nat.zero_testBit]

/-- C7 witness: bit 8 set from empty checks true at 8, false at 9, and the
empty board checks false at 8. -/
theorem set_then_check_spec_witness :
    (∃ v b1, set_bit (BitBoard.mk 0) 8 = some (Except.ok v, b1) ∧
      check_bit b1 8 = some (Except.ok true) ∧
      ∀ j, j < 64 → j ≠ 8 → check_bit b1 j = some (Except.ok false)) ∧
    check_bit (BitBoard.mk 0) 8 = some (Except.ok false) :=
  ⟨(set_then_check_spec 8 (by decide)).1, (set_then_check_spec 8 (by decide)).2 8 (by decide)⟩

/-- C1: on a non-zero board, `pop_bit` returns `Some k` with `k` the
trailing-zero count — the index of the lowest set bit — and mutates the value
to old XOR `1 << k`, clearing exactly that bit; on the zero board it returns
`None` and leaves the value zero; and the concrete `0x0C0F00D000000100`
scenario pops index 8 leaving `0x0C0F00D000000000`. -/
theorem pop_bit_spec (b : BitBoard) (h64 : b.val < 2 ^ 64) :
    (b.val ≠ 0 →
      ∃ k, pop_bit b = some (some k, BitBoard.mk (b.val ^^^ (1 <<< k))) ∧
        k = trailing_zeros b.val ∧ k < 64 ∧ b.val.testBit k = true ∧
        (∀ j, j < k → b.val.testBit j = false) ∧
        (b.val ^^^ (1 <<< k)).testBit k = false ∧
        (∀ j, j ≠ k → (b.val ^^^ (1 <<< k)).testBit j = b.val.testBit j)) ∧
    (b.val = 0 → pop_bit b = some (none, b)) ∧
    pop_bit (BitBoard.mk 0x0C0F00D000000100) = some (some 8, BitBoard.mk 0x0C0F00D000000000) := by
  refine ⟨?_, ?_, by decide⟩
  · intro h0
    obtain ⟨h1, h2, h3⟩ := trailing_zeros_spec b.val h0 h64
    have hne : trailing_zeros b.val ≠ 64 := by omega
    refine ⟨trailing_zeros b.val, ?_, rfl, h1, h2, h3, ?_, ?_⟩
    · rw [pop_bit]
      rw [if_neg hne, shl1_64_lt _ h1]
      simp [Nat.one_shiftLeft]
    · simp [Nat.one_shiftLeft, Nat.testBit_xor, h2, Nat.testBit_two_pow_self]
    · intro j hj
      simp [Nat.one_shiftLeft, Nat.testBit_xor, Nat.testBit_two_pow_of_ne (Ne.symm hj)]
  · intro h0
    have hz : trailing_zeros b.val = 64 := by rw [h0]; decide
    rw [pop_bit]
    simp [hz]

/-- C1 witness: popping the board with raw value 256 returns index 8 and
clears it. -/
theorem pop_bit_spec_witness :
    ∃ k, pop_bit (BitBoard.mk 256) = some (some k, BitBoard.mk ((256 : Nat) ^^^ (1 <<< k))) ∧
      k = trailing_zeros 256 ∧ k < 64 ∧ (256 : Nat).testBit k = true ∧
      (∀ j, j < k → (256 : Nat).testBit j = false) ∧
      ((256 : Nat) ^^^ (1 <<< k)).testBit k = false ∧
      (∀ j, j ≠ k → ((256 : Nat) ^^^ (1 <<< k)).testBit j = (256 : Nat).testBit j) :=
  (pop_bit_spec (BitBoard.mk 256) (by decide)).1 (by decide)

/-- C4: `count_bits` returns the population count — the sum of the base-2
digits — of the wrapped value, 0 on the empty board and 8 on `0xFF00`. -/
theorem count_bits_spec :
    (∀ b : BitBoard, count_bits b = (Nat.digits 2 b.val).sum) ∧
    count_bits (BitBoard.mk 0) = 0 ∧
    count_bits (BitBoard.mk 0xFF00) = 8 := by
  refine ⟨fun b => count_bits_loop_digits b.val, ?_, ?_⟩
  · rw [count_bits, count_bits_loop_digits]
    simp
  · rw [count_bits, count_bits_loop_digits]
    simp

/-- C8: every operation terminates; in particular the `count_bits` loop body
`v &= v - 1` strictly decreases a non-zero value, and iterating it from the
initial value reaches zero after exactly `count_bits` (the population count)
steps and not before. -/
theorem termination_spec (b : BitBoard) :
    (fun v => v &&& (v - 1))^[count_bits b] b.val = 0 ∧
    (∀ k, k < count_bits b → (fun v => v &&& (v - 1))^[k] b.val ≠ 0) ∧
    (∀ v : Nat, v ≠ 0 → v &&& (v - 1) < v) := by
  refine ⟨(cb_iterate b.val).1, (cb_iterate b.val).2, fun v hv =>
    Nat.lt_of_le_of_lt Nat.and_le_right (Nat.sub_lt (Nat.pos_of_ne_zero hv) Nat.zero_lt_one)⟩

/-- C8 witness: from value 6 the loop reaches zero in `count_bits` steps and
one loop body application strictly decreases 6. -/
theorem termination_spec_witness :
    (fun v => v &&& (v - 1))^[count_bits (BitBoard.mk 6)] 6 = 0 ∧
    (6 : Nat) &&& (6 - 1) < 6 :=
  ⟨(termination_spec (BitBoard.mk 6)).1,
    (termination_spec (BitBoard.mk 6)).2.2 6 (by decide)⟩

/-- C10: over the whole u8 index domain, `check_bit`, `set_bit` and
`unset_bit` return a value (no panic: every shift `1 << index` happens under
the `index <= 63` guard), and `pop_bit` returns a value on every board (its
shift happens only when the trailing-zero count is below 64). -/
theorem panic_free_spec (b : BitBoard) (i : Nat) (hi : i < 256) :
    (check_bit b i).isSome ∧ (set_bit b i).isSome ∧ (unset_bit b i).isSome ∧
    (pop_bit b).isSome := by
  refine ⟨?_, ?_, ?_, pop_bit_isSome b⟩ <;> by_cases h : i > 63
  · simp [check_bit, h]
  · rw [check_bit_lt b i (by omega)]
    rfl
  · simp [set_bit, h]
  · rw [set_bit_lt b i (by omega)]
    rfl
  · simp [unset_bit, h]
  · rcases htb : b.val.testBit i with _ | _
    · rw [unset_bit_lt_clear b i (by omega) htb]
      rfl
    · rw [unset_bit_lt_set b i (by omega) htb]
      rfl

/-- C10 witness: totality at index 200 (out of range) on the empty board and
at index 3 (in range) on board 12. -/
theorem panic_free_spec_witness :
    ((check_bit (BitBoard.mk 0) 200).isSome ∧ (set_bit (BitBoard.mk 0) 200).isSome ∧
      (unset_bit (BitBoard.mk 0) 200).isSome ∧ (pop_bit (BitBoard.mk 0)).isSome) ∧
    ((check_bit (BitBoard.mk 12) 3).isSome ∧ (set_bit (BitBoard.mk 12) 3).isSome ∧
      (unset_bit (BitBoard.mk 12) 3).isSome ∧ (pop_bit (BitBoard.mk 12)).isSome) :=
  ⟨panic_free_spec (BitBoard.mk 0) 200 (by decide),
    panic_free_spec (BitBoard.mk 12) 3 (by decide)⟩

/-! ## Rendering lemmas -/

lemma mk_append_mk (a b : List Char) : String.mk a ++ String.mk b = String.mk (a ++ b) := rfl

lemma foldl_append_str (l : List String) (a : String) :
    l.foldl (fun r s => r ++ s) a = a ++ String.join l := by
  induction l generalizing a with
  | nil => simp [String.join, String.append_empty]
  | cons x xs ih =>
    simp only [List.foldl_cons]
    rw [ih (a ++ x)]
    have hx : String.join (x :: xs) = x ++ String.join xs := by
      show List.foldl _ "" (x :: xs) = _
      rw [List.foldl_cons, ih ("" ++ x), String.empty_append]
    rw [hx, String.append_assoc]

lemma join_cons (s : String) (l : List String) : String.join (s :: l) = s ++ String.join l := by
  show List.foldl _ "" (s :: l) = _
  rw [List.foldl_cons, foldl_append_str l ("" ++ s), String.empty_append]

lemma fmt_square_ok (b : BitBoard) (i : Nat) (h : i < 64) (f : Formatter)
    (hf : f.failOn = []) :
    fmt_square b i f = some (Formatter.mk (f.out ++ String.mk [bit_char b i]) []) := by
  rw [fmt_square, check_bit_lt b i h]
  rcases htb : b.val.testBit i with _ | _ <;>
    simp [expect_ok, write_str, hf, bit_char, htb, Option.bind]

lemma fmt_fold_ok (b : BitBoard) (l : List Nat) (hl : ∀ i ∈ l, i < 64) (f : Formatter)
    (hf : f.failOn = []) :
    l.foldlM (fun acc i => fmt_square b i acc) f
      = some (Formatter.mk (f.out ++ String.mk (l.map (fun i => bit_char b i))) []) := by
  induction l generalizing f with
  | nil =>
    cases f
    simp_all [String.append_empty]
  | cons a as ih =>
    rw [List.foldlM_cons, fmt_square_ok b a (hl a (by simp)) f hf]
    have hbind : (some (Formatter.mk (f.out ++ String.mk [bit_char b a]) []) >>=
        fun f1 => as.foldlM (fun acc i => fmt_square b i acc) f1)
        = as.foldlM (fun acc i => fmt_square b i acc)
            (Formatter.mk (f.out ++ String.mk [bit_char b a]) []) := rfl
    rw [hbind, ih (fun i hi => hl i (by simp [hi])) _ rfl]
    simp only [List.map_cons, String.append_assoc, mk_append_mk, List.singleton_append]

lemma fmt_rank_ok (b : BitBoard) (r : Nat) (hr : r < 8) (f : Formatter)
    (hf : f.failOn = []) :
    fmt_rank b r f = some (Formatter.mk (f.out ++ bit_row b r) []) := by
  rw [fmt_rank]
  have hmap : file_iter.foldlM (fun acc file => fmt_square b (from_file_and_rank file r) acc) f
      = (file_iter.map (fun file => from_file_and_rank file r)).foldlM
          (fun acc i => fmt_square b i acc) f := by
    rw [List.foldlM_map]
  have hmem : ∀ i ∈ file_iter.map (fun file => from_file_and_rank file r), i < 64 := by
    simp only [file_iter, from_file_and_rank]
    intro i hi
    simp at hi
    omega
  rw [hmap, fmt_fold_ok b _ hmem f hf]
  simp [write_str, bit_row, List.map_map, from_file_and_rank, String.append_assoc,
    mk_append_mk, Function.comp, file_iter]

lemma fmt_ranks_ok (b : BitBoard) (l : List Nat) (hl : ∀ r ∈ l, r < 8) (f : Formatter)
    (hf : f.failOn = []) :
    l.foldlM (fun acc r => fmt_rank b r acc) f
      = some (Formatter.mk (f.out ++ String.join (l.map (fun r => bit_row b r))) []) := by
  induction l generalizing f with
  | nil =>
    cases f
    simp_all [String.join, String.append_empty]
  | cons a as ih =>
    rw [List.foldlM_cons, fmt_rank_ok b a (hl a (by simp)) f hf]
    have hbind : (some (Formatter.mk (f.out ++ bit_row b a) []) >>=
        fun f1 => as.foldlM (fun acc r => fmt_rank b r acc) f1)
        = as.foldlM (fun acc r => fmt_rank b r acc) (Formatter.mk (f.out ++ bit_row b a) []) := rfl
    rw [hbind, ih (fun r hr => hl r (by simp [hr])) _ rfl]
    simp only [List.map_cons, join_cons, String.append_assoc]

/-- C5: rendering any BitBoard to a fresh, accepting destination succeeds and
produces exactly the 8-rows-by-8-characters grid of '1'/'0' membership
characters, each row newline-terminated, top row first; concretely `0xFF00`
renders with all-ones in the second row (indices 8–15). -/
theorem display_spec (b : BitBoard) :
    fmt b (Formatter.mk "" []) = some (Except.ok (), Formatter.mk (grid_string b) []) ∧
    fmt (BitBoard.mk 0xFF00) (Formatter.mk "" []) =
      some (Except.ok (), Formatter.mk
        "00000000\n11111111\n00000000\n00000000\n00000000\n00000000\n00000000\n00000000\n" []) := by
  constructor
  · rw [fmt, fmt_ranks_ok b rank_iter (by decide) (Formatter.mk "" []) rfl]
    simp [write_str, grid_string, rank_iter, String.empty_append, String.append_empty]
  · rfl

/-- C6 evidence: with a destination that rejects every piece the row loop
writes ('1', '0' and the row terminator all return an error), `Display::fmt`
still returns success — the source discards each such `fmt::Result` — so
write failures are not propagated to the caller as the spec requires. -/
theorem fmt_swallows_sink_errors :
    write_str (Formatter.mk "" ["0", "1", "\n"]) "1"
        = (Except.error (), Formatter.mk "" ["0", "1", "\n"]) ∧
    write_str (Formatter.mk "" ["0", "1", "\n"]) "0"
        = (Except.error (), Formatter.mk "" ["0", "1", "\n"]) ∧
    write_str (Formatter.mk "" ["0", "1", "\n"]) "\n"
        = (Except.error (), Formatter.mk "" ["0", "1", "\n"]) ∧
    fmt (BitBoard.mk 0xFF00) (Formatter.mk "" ["0", "1", "\n"])
        = some (Except.ok (), Formatter.mk "" ["0", "1", "\n"]) := by
  exact ⟨rfl, rfl, rfl, rfl⟩

end RustChess
